import Mathlib

/-
Verification development for the github-merger CLI (src/src/index.ts, with the
duplicated legacy copy in src/unnamed/part_000).  The TypeScript core is shallowly
embedded here: the filesystem seen by a walk is a tree of entries, strings are
Lean strings with the JS string operations re-implemented executably over their
character lists, and each external git invocation is an explicit environment value
(its stdout when it succeeds, its error message when it raises).
-/

namespace GithubMerger

/-- ASCII lowercasing of one character; models JS String.prototype.toLowerCase
restricted to the ASCII range exercised by file names and extensions. -/
def lowerChar (c : Char) : Char :=
  if 'A' ≤ c ∧ c ≤ 'Z' then Char.ofNat (c.toNat + 32) else c

/-- Models JS s.toLowerCase() on ASCII strings. -/
def toLowerCase (s : String) : String := String.mk (s.data.map lowerChar)

/-- Code-unit lexicographic comparison of character lists: the order JS
Array.prototype.sort() uses for strings with the default comparator, and the
order localeCompare induces on the ASCII names the program sorts. -/
def charLe : List Char → List Char → Bool
  | [], _ => true
  | _ :: _, [] => false
  | a :: as, b :: bs => if a < b then true else if b < a then false else charLe as bs

/-- Code-unit string comparison used by the embedded sorts. -/
def strLe (a b : String) : Bool := charLe a.data b.data

/-- Splitting a character list at every occurrence of one separator character;
models JS s.split(sep) for a one-character separator (the program splits on
newline and on the slash). -/
def splitOnChar (sep : Char) : List Char → List (List Char)
  | [] => [[]]
  | c :: rest =>
    if c = sep then [] :: splitOnChar sep rest
    else
      match splitOnChar sep rest with
      | [] => [[c]]
      | h :: t => (c :: h) :: t

/-- Models JS s.split("\n"). -/
def splitLines (s : String) : List String := (splitOnChar '\n' s.data).map String.mk

/-- The whitespace characters JS trim strips that can occur in the program's
inputs (git output lines). -/
def isWhite (c : Char) : Bool := c = ' ' || c = '\t' || c = '\n' || c = '\r'

/-- Models JS String.prototype.trim. -/
def jsTrim (s : String) : String :=
  String.mk (((s.data.dropWhile isWhite).reverse.dropWhile isWhite).reverse)

/-- Index of the first occurrence of pat as a contiguous sublist, if any;
the position at which a leftmost regex/substring match starts. -/
def findSubIdx (pat : List Char) : List Char → Option Nat
  | [] => if pat.isEmpty then some 0 else none
  | c :: rest =>
    if pat.isPrefixOf (c :: rest) then some 0
    else (findSubIdx pat rest).map (· + 1)

/-- Models JS String.prototype.includes. -/
def hasSubstr (s pat : String) : Bool := (findSubIdx pat.data s.data).isSome

/-- Index of the last dot in a character list, if any. -/
def lastDotIdx : List Char → Option Nat
  | [] => none
  | c :: rest =>
    match lastDotIdx rest with
    | some i => some (i + 1)
    | none => if c = '.' then some 0 else none

/-- Models Node path.extname applied to a bare file name (no separators): the
suffix starting at the last dot, and the empty string when the name has no dot
or its only dot is the leading character (dotfiles). -/
def extname (s : String) : String :=
  match lastDotIdx s.data with
  | none => ""
  | some i => if i = 0 then "" else String.mk (s.data.drop i)

/-- Models getRepoNameFromUrl: the regex match of the final path segment of the
URL with a trailing ".git" stripped, with the literal fallback "repository" when
the URL has no slash-delimited trailing segment.  The lazy capture group needs
at least one character, so a bare ".git" segment is kept whole. -/
def getRepoNameFromUrl (url : String) : String :=
  let segs := (splitOnChar '/' url.data).map String.mk
  if segs.length ≤ 1 then "repository"
  else
    let s := segs.getLastD ""
    if s = "" then "repository"
    else if (List.isSuffixOf ".git".data s.data) && s.data.length > 4 then
      String.mk (s.data.take (s.data.length - 4))
    else s

/-- Models one line against the regex refs\/heads\/(.+)$ : everything after the
first occurrence of "refs/heads/" is captured, provided it is non-empty. -/
def matchRefsHeads (line : String) : Option String :=
  match findSubIdx ("refs/heads/".data) line.data with
  | none => none
  | some i =>
    let captured := line.data.drop (i + 11)
    if captured.isEmpty then none else some (String.mk captured)

/-- Tier-1 parsing of git ls-remote --heads stdout, exactly as in
getAvailableBranches: split into lines, drop blank lines, keep each line's
regex capture, and sort (JS default sort, stable, code-unit order — modelled by
a stable insertion sort under strLe).  No deduplication is performed. -/
def parseBranches (stdout : String) : List String :=
  List.insertionSort (fun a b => strLe a b = true)
    (((splitLines stdout).filter (fun l => !(jsTrim l == ""))).filterMap matchRefsHeads)

/-- Parsing of git branch -r output in the bare-clone fallback: trim each
non-blank line, keep lines starting with "origin/" that do not contain "->",
strip the "origin/" prefix, drop literal "HEAD", and sort. -/
def parseFallbackBranches (branchOutput : String) : List String :=
  List.insertionSort (fun a b => strLe a b = true)
    ((((splitLines branchOutput).filter (fun l => !(jsTrim l == ""))).filterMap (fun line =>
        let t := jsTrim line
        if (List.isPrefixOf "origin/".data t.data) && !(hasSubstr t "->") then
          some (String.mk (t.data.drop 7))
        else none)).filter (fun b => !(b == "HEAD")))

/-- The outcomes of the git invocations made by one branch-discovery call:
stdout of git ls-remote --heads when it succeeds (none when it raises, with the
raised error message in lsRemoteErr), and the git branch -r stdout of the bare
clone when both the bare clone and its listing succeed (none when either
raises). -/
structure GitEnv where
  lsRemoteHeads : Option String
  lsRemoteErr : String
  bareClone : Option String

/-- getAvailableBranches from src/src/index.ts: none models the function
returning null.  The ls-remote error is classified by the "not found" substring;
the bare-clone fallback has its own try/catch whose handler returns null. -/
def getAvailableBranches (env : GitEnv) : Option (List String) :=
  match env.lsRemoteHeads with
  | some stdout =>
    let branches := parseBranches stdout
    if branches.length = 0 then
      match env.bareClone with
      | some branchOutput =>
        let fallbackBranches := parseFallbackBranches branchOutput
        if fallbackBranches.length > 0 then some fallbackBranches
        else some ["main", "master"]
      | none => none
    else some branches
  | none =>
    if hasSubstr env.lsRemoteErr "not found" then none
    else some ["main", "master"]

/-- getAvailableBranches from src/unnamed/part_000: the bare-clone fallback is
not wrapped in its own try, so any of its failures reaches the outer catch,
which always answers the default list. -/
def getAvailableBranchesLegacy (env : GitEnv) : List String :=
  match env.lsRemoteHeads with
  | some stdout =>
    let branches := parseBranches stdout
    if branches.length = 0 then
      match env.bareClone with
      | some branchOutput =>
        let fallbackBranches := parseFallbackBranches branchOutput
        if fallbackBranches.length > 0 then fallbackBranches
        else ["main", "master"]
      | none => ["main", "master"]
    else branches
  | none => ["main", "master"]

/-- One entry of the cloned directory tree as the walks see it; the list order
of a directory's entries is the filesystem listing order returned by
fs.readdirSync. -/
inductive Entry : Type
  | file (name content : String) : Entry
  | dir (name : String) (entries : List Entry) : Entry

/-- The FileTree structure built by buildFileTree. -/
inductive FileTree : Type
  | file (name : String) : FileTree
  | dir (name : String) (children : List FileTree) : FileTree

def Entry.isDir : Entry → Bool
  | .file _ _ => false
  | .dir _ _ => true

def Entry.entryName : Entry → String
  | .file n _ => n
  | .dir n _ => n

def FileTree.children : FileTree → List FileTree
  | .file _ => []
  | .dir _ cs => cs

def FileTree.nodeName : FileTree → String
  | .file n => n
  | .dir n _ => n

/-- The comparator buildFileTree passes to items.sort: directories strictly
before files, and otherwise by name. -/
def entLe (a b : Entry) : Bool :=
  if a.isDir && !b.isDir then true
  else if !a.isDir && b.isDir then false
  else strLe a.entryName b.entryName

/-- The sorted directory listing used by buildFileTree: a stable sort under
entLe (JS Array.prototype.sort is stable, so a stable insertion sort is its
model). -/
def sortEntries (es : List Entry) : List Entry :=
  List.insertionSort (fun a b => entLe a b = true) es

/-- The extension test shared by buildFileTree and processDirectory:
no includeExtensions list means every file passes; otherwise the file's
lowercased extname must occur among the lowercased members. -/
def extMatches (includeExtensions : Option (List String)) (item : String) : Bool :=
  match includeExtensions with
  | none => true
  | some exts => (exts.map toLowerCase).contains (toLowerCase (extname item))

/-- The file predicate of processDirectory: not excluded by name, and passing
the extension test. -/
def filePasses (excludeFiles : List String) (includeExtensions : Option (List String))
    (item : String) : Bool :=
  !excludeFiles.contains item && extMatches includeExtensions item

/-- The nodes one sorted directory entry contributes in buildFileTree: a file
passing the extension test becomes a leaf; a non-excluded subdirectory is
recursed into and kept only when the recursion produced at least one child. -/
def entryToNodes (excludeDirs : List String) (includeExtensions : Option (List String)) :
    Entry → List FileTree
  | Entry.file item _ => if extMatches includeExtensions item then [FileTree.file item] else []
  | Entry.dir item es =>
    if excludeDirs.contains item then []
    else
      let children :=
        ((sortEntries es).attach.map
          (fun ⟨e, he⟩ => entryToNodes excludeDirs includeExtensions e)).flatten
      if children.isEmpty then [] else [FileTree.dir item children]
termination_by e => sizeOf e
decreasing_by
  have h2 := List.sizeOf_lt_of_mem ((List.perm_insertionSort _ _).mem_iff.mp he)
  simp_wf
  omega

/-- buildFileTree: the root node labelled repoName whose children are collected
from the sorted listing; the root itself is never pruned and never tested
against excludeDirs. -/
def buildFileTree (excludeDirs : List String) (includeExtensions : Option (List String))
    (repoName : String) (entries : List Entry) : FileTree :=
  FileTree.dir repoName
    (((sortEntries entries).map (entryToNodes excludeDirs includeExtensions)).flatten)

mutual

/-- generateTreeString: one line for this node with its branch or elbow marker,
then the children (a file node has no children field to iterate). -/
def generateTreeString : FileTree → String → Bool → String
  | FileTree.file n, pref, isLast => pref ++ (if isLast then "└─ " else "├─ ") ++ n ++ "\n"
  | FileTree.dir n cs, pref, isLast =>
    pref ++ (if isLast then "└─ " else "├─ ") ++ n ++ "\n" ++
      renderChildren cs (pref ++ (if isLast then "   " else "│  "))

/-- The forEach over structure.children: every child but the last is rendered
with isLast false. -/
def renderChildren : List FileTree → String → String
  | [], _ => ""
  | [c], pref => generateTreeString c pref true
  | c :: c2 :: rest, pref => generateTreeString c pref false ++ renderChildren (c2 :: rest) pref

end

/-- Models Array.prototype.join("\n"). -/
def joinNl : List String → String
  | [] => ""
  | [a] => a
  | a :: b :: rest => a ++ "\n" ++ joinNl (b :: rest)

/-- The tree text embedded in the merge header, exactly as mergeRepositoryFiles
assembles it: repoName ++ "/", a newline, and the generateTreeString output
split on newlines with its first two lines dropped. -/
def embeddedTreeString (repoName : String) (t : FileTree) : String :=
  repoName ++ "/\n" ++ joinNl ((splitLines (generateTreeString t "" true)).drop 2)

mutual

/-- processDirectory from mergeRepositoryFiles: the concatenation walk over the
raw fs.readdirSync listing (no sorting), returning in order the
(repository-relative path, contents) pair of every qualifying file. -/
def processDirectory (excludeDirs excludeFiles : List String)
    (includeExtensions : Option (List String)) (pathPref : String) (entries : List Entry) :
    List (String × String) :=
  (entries.attach.map
    (fun ⟨e, he⟩ => processItem excludeDirs excludeFiles includeExtensions pathPref e)).flatten
termination_by sizeOf entries
decreasing_by
  have h2 := List.sizeOf_lt_of_mem he
  simp_wf
  omega

/-- One iteration of the processDirectory loop body. -/
def processItem (excludeDirs excludeFiles : List String)
    (includeExtensions : Option (List String)) (pathPref : String) : Entry → List (String × String)
  | Entry.file item content =>
    if filePasses excludeFiles includeExtensions item then [(pathPref ++ "/" ++ item, content)]
    else []
  | Entry.dir item es =>
    if excludeDirs.contains item then []
    else processDirectory excludeDirs excludeFiles includeExtensions (pathPref ++ "/" ++ item) es
termination_by e => sizeOf e
decreasing_by
  simp_wf <;> omega

end

mutual

/-- The walk the specification describes for step 4 of the Merger: identical to
processDirectory except that each directory listing is visited in the sorted
directory-then-file order of buildFileTree.  Stated from the spec sentence, for
comparison with the code's processDirectory. -/
def canonicalWalk (excludeDirs excludeFiles : List String)
    (includeExtensions : Option (List String)) (pathPref : String) (entries : List Entry) :
    List (String × String) :=
  ((sortEntries entries).attach.map
    (fun ⟨e, he⟩ => canonicalItem excludeDirs excludeFiles includeExtensions pathPref e)).flatten
termination_by sizeOf entries
decreasing_by
  have h2 := List.sizeOf_lt_of_mem ((List.perm_insertionSort _ _).mem_iff.mp he)
  simp_wf
  omega

/-- One entry of the canonical (sorted) walk. -/
def canonicalItem (excludeDirs excludeFiles : List String)
    (includeExtensions : Option (List String)) (pathPref : String) : Entry → List (String × String)
  | Entry.file item content =>
    if filePasses excludeFiles includeExtensions item then [(pathPref ++ "/" ++ item, content)]
    else []
  | Entry.dir item es =>
    if excludeDirs.contains item then []
    else canonicalWalk excludeDirs excludeFiles includeExtensions (pathPref ++ "/" ++ item) es
termination_by e => sizeOf e
decreasing_by
  simp_wf <;> omega

end

mutual

/-- Recursively re-orders every directory listing of a filesystem tree into the
sorted order of buildFileTree; a listing fixed by recSortList is one the
filesystem already reports in canonical order. -/
def recSortEntry : Entry → Entry
  | Entry.file n c => Entry.file n c
  | Entry.dir n es => Entry.dir n (recSortList es)
termination_by e => sizeOf e
decreasing_by
  simp_wf <;> omega

/-- recSortEntry applied below a sorted listing. -/
def recSortList (es : List Entry) : List Entry :=
  (sortEntries es).attach.map (fun ⟨e, he⟩ => recSortEntry e)
termination_by sizeOf es
decreasing_by
  have h2 := List.sizeOf_lt_of_mem ((List.perm_insertionSort _ _).mem_iff.mp he)
  simp_wf
  omega

end

/-- Concatenation of the per-file blocks appended to mergedContent. -/
def concatAll : List String → String
  | [] => ""
  | s :: rest => s ++ concatAll rest

/-- The header prepended to mergedContent: source line with optional branch,
timestamp line, and the embedded tree wrapped in a block comment. -/
def mergeHeader (githubUrl : String) (branch : Option String) (timestamp : String)
    (repoName : String) (t : FileTree) : String :=
  "// Source: " ++ githubUrl ++
    (match branch with | some b => " (branch: " ++ b ++ ")" | none => "") ++ "\n" ++
  "// Merged on: " ++ timestamp ++ "\n\n" ++
  "/*\n" ++ embeddedTreeString repoName t ++ "*/\n\n"

/-- mergeRepositoryFiles, as a function of the clone outcome (none models a
failed clone) and the wall-clock timestamp.  The first component is the
returned boolean; the second lists every fs.writeFileSync performed by the
call as an (outputPath, contents) pair. -/
def mergeRepositoryFiles (githubUrl : String) (branch : Option String)
    (excludeDirs excludeFiles : List String) (includeExtensions : Option (List String))
    (outputPath : String) (cloneResult : Option (List Entry)) (timestamp : String) :
    Bool × List (String × String) :=
  let repoName := getRepoNameFromUrl githubUrl
  match cloneResult with
  | none => (false, [])
  | some entries =>
    let fileTree := buildFileTree excludeDirs includeExtensions repoName entries
    if fileTree.children.isEmpty then (false, [])
    else
      let blocks := processDirectory excludeDirs excludeFiles includeExtensions repoName entries
      let mergedContent := mergeHeader githubUrl branch timestamp repoName fileTree ++
        concatAll (blocks.map (fun b => "\n// File: " ++ b.1 ++ "\n" ++ b.2 ++ "\n"))
      (true, [(outputPath, mergedContent)])

/-- The filesystem as the workspace manager sees it: which directory paths
exist, and on which paths a recursive removal fails (an environmental
condition such as permissions). -/
@[ext]
structure FsState where
  existing : List String
  stubborn : List String

/-- Models fs.rmSync(dir, recursive+force): true in the second component when
the removal raises, in which case the state is unchanged. -/
def rmDirRec (fs : FsState) (dir : String) : FsState × Bool :=
  if fs.stubborn.contains dir then (fs, true)
  else ({ existing := fs.existing.filter (fun d => !(d == dir)), stubborn := fs.stubborn }, false)

/-- One iteration of the cleanup loop: the existsSync guard, then rmSync inside
try/catch whose handler silently ignores the error (a raising removal leaves
the state as it was). -/
def cleanupStep (fs : FsState) (dir : String) : FsState :=
  if fs.existing.contains dir then (rmDirRec fs dir).1 else fs

/-- cleanup from src/src/index.ts: best-effort removal of every registered
temporary directory; total by construction, mirroring that every removal error
is caught and ignored. -/
def cleanup (tempDirectories : List String) (fs : FsState) : FsState :=
  tempDirectories.foldl cleanupStep fs

/-- The finally block of mergeRepositoryFiles: guarded rmSync without a catch
(none models the removal raising and the exception propagating), then removal
of the path from the registry. -/
def releaseFinally (tempDirectories : List String) (fs : FsState) (dir : String) :
    Option (List String × FsState) :=
  if fs.existing.contains dir then
    let r := rmDirRec fs dir
    if r.2 then none
    else some (tempDirectories.filter (fun d => !(d == dir)), r.1)
  else some (tempDirectories.filter (fun d => !(d == dir)), fs)

/-- No directory node of this tree is childless, recursively. -/
def noEmptyDirs : FileTree → Bool
  | FileTree.file _ => true
  | FileTree.dir _ cs => !cs.isEmpty && cs.attach.all (fun ⟨c, hc⟩ => noEmptyDirs c)
termination_by t => sizeOf t
decreasing_by
  have h2 := List.sizeOf_lt_of_mem hc
  simp_wf
  omega

/-- The tree has at least one file leaf somewhere below. -/
def hasDescFile : FileTree → Bool
  | FileTree.file _ => true
  | FileTree.dir _ cs => cs.attach.any (fun ⟨c, hc⟩ => hasDescFile c)
termination_by t => sizeOf t
decreasing_by
  have h2 := List.sizeOf_lt_of_mem hc
  simp_wf
  omega

/- ───────────────────────── helper lemmas ───────────────────────── -/

theorem mem_sortEntries {e : Entry} {es : List Entry} : e ∈ sortEntries es ↔ e ∈ es :=
  (List.perm_insertionSort _ es).mem_iff

theorem charLe_trans :
    ∀ as bs cs : List Char, charLe as bs = true → charLe bs cs = true → charLe as cs = true := by
  intro as
  induction as with
  | nil => intro bs cs _ _; rfl
  | cons a as ih =>
    intro bs cs hab hbc
    cases bs with
    | nil => simp [charLe] at hab
    | cons b bs =>
      cases cs with
      | nil => simp [charLe] at hbc
      | cons c cs =>
        simp only [charLe] at hab hbc ⊢
        rcases lt_trichotomy a b with h1 | h1 | h1
        · rcases lt_trichotomy b c with h2 | h2 | h2
          · simp [lt_trans h1 h2]
          · subst h2; simp [h1]
          · simp [h2, not_lt_of_lt h2] at hbc
        · subst h1
          rcases lt_trichotomy a c with h2 | h2 | h2
          · simp [h2]
          · subst h2
            simp [lt_irrefl] at hab hbc ⊢
            exact ih _ _ hab hbc
          · simp [h2, not_lt_of_lt h2] at hbc
        · simp [h1, not_lt_of_lt h1] at hab

theorem charLe_total : ∀ as bs : List Char, charLe as bs = true ∨ charLe bs as = true := by
  intro as
  induction as with
  | nil => intro bs; left; rfl
  | cons a as ih =>
    intro bs
    cases bs with
    | nil => right; rfl
    | cons b bs =>
      simp only [charLe]
      rcases lt_trichotomy a b with h1 | h1 | h1
      · left; simp [h1]
      · subst h1
        simp [lt_irrefl]
        exact ih bs
      · right; simp [h1, not_lt_of_lt h1]

theorem strLe_trans (a b c : String) (hab : strLe a b = true) (hbc : strLe b c = true) :
    strLe a c = true :=
  charLe_trans _ _ _ hab hbc

theorem strLe_total (a b : String) : strLe a b = true ∨ strLe b a = true :=
  charLe_total a.data b.data

theorem processDirectory_eq (exD exF : List String) (inc : Option (List String))
    (p : String) (es : List Entry) :
    processDirectory exD exF inc p es = (es.map (processItem exD exF inc p)).flatten := by
  rw [processDirectory]
  congr 1
  exact List.attach_map_val es _

theorem canonicalWalk_eq (exD exF : List String) (inc : Option (List String))
    (p : String) (es : List Entry) :
    canonicalWalk exD exF inc p es
      = ((sortEntries es).map (canonicalItem exD exF inc p)).flatten := by
  rw [canonicalWalk]
  congr 1
  exact List.attach_map_val _ _

theorem recSortList_eq (es : List Entry) :
    recSortList es = (sortEntries es).map recSortEntry := by
  rw [recSortList]
  exact List.attach_map_val _ _

theorem entryToNodes_dir (exD : List String) (inc : Option (List String)) (n : String)
    (es : List Entry) :
    entryToNodes exD inc (Entry.dir n es) =
      if exD.contains n then []
      else
        let children := ((sortEntries es).map (entryToNodes exD inc)).flatten
        if children.isEmpty then [] else [FileTree.dir n children] := by
  rw [entryToNodes]
  congr 1
  exact congrArg
    (fun l : List (List FileTree) =>
      let children := l.flatten
      if children.isEmpty then [] else [FileTree.dir n children])
    (List.attach_map_val (sortEntries es) (entryToNodes exD inc))

theorem attach_all {α : Type} (cs : List α) (p : α → Bool) :
    (cs.attach.all fun x => p x.1) = cs.all p := by
  rw [Bool.eq_iff_iff, List.all_eq_true, List.all_eq_true]
  constructor
  · intro h c hc
    exact h ⟨c, hc⟩ (List.mem_attach cs ⟨c, hc⟩)
  · intro h x _
    exact h x.1 x.2

theorem attach_any {α : Type} (cs : List α) (p : α → Bool) :
    (cs.attach.any fun x => p x.1) = cs.any p := by
  rw [Bool.eq_iff_iff, List.any_eq_true, List.any_eq_true]
  constructor
  · rintro ⟨x, _, hx⟩
    exact ⟨x.1, x.2, hx⟩
  · rintro ⟨c, hc, hp⟩
    exact ⟨⟨c, hc⟩, List.mem_attach cs ⟨c, hc⟩, hp⟩

theorem noEmptyDirs_dir (n : String) (cs : List FileTree) :
    noEmptyDirs (FileTree.dir n cs) = (!cs.isEmpty && cs.all noEmptyDirs) := by
  rw [noEmptyDirs]
  congr 1
  exact attach_all cs noEmptyDirs

theorem hasDescFile_dir (n : String) (cs : List FileTree) :
    hasDescFile (FileTree.dir n cs) = cs.any hasDescFile := by
  rw [hasDescFile]
  exact attach_any cs hasDescFile

/-- C4: when the remote-heads invocation raises, getAvailableBranches answers
none (discovery failure) exactly when the error message contains "not found",
and otherwise answers the literal default list ["main", "master"]; illustrated
on a not-found message and on an unrelated message. -/
theorem getAvailableBranches_lsRemote_error (msg : String) (bc : Option String) :
    getAvailableBranches { lsRemoteHeads := none, lsRemoteErr := msg, bareClone := bc }
        = (if hasSubstr msg "not found" then none else some ["main", "master"])
    ∧ getAvailableBranches
        { lsRemoteHeads := none
          lsRemoteErr := "fatal: repository 'x' not found", bareClone := none } = none
    ∧ getAvailableBranches
        { lsRemoteHeads := none
          lsRemoteErr := "connection timeout", bareClone := none } = some ["main", "master"] := by
  refine ⟨rfl, by decide, by decide⟩

/-- C3 counterexample: with a succeeding remote-heads listing that yields zero
names and a failing bare-clone fallback, getAvailableBranches of
src/src/index.ts returns none (failure), not the default list the claim
promises. -/
theorem getAvailableBranches_fallback_failure_ce :
    getAvailableBranches { lsRemoteHeads := some "", lsRemoteErr := "", bareClone := none } = none
    ∧ getAvailableBranches { lsRemoteHeads := some "", lsRemoteErr := "", bareClone := none }
        ≠ some ["main", "master"] := by
  refine ⟨by decide, by decide⟩

/-- C3 amended: when tier 1 succeeds with zero names, a failure of the
bare-clone fallback makes getAvailableBranches of src/src/index.ts report
failure (none); the literal default list is returned only when the fallback
succeeds but yields zero usable names.  The duplicated implementation in
src/unnamed/part_000 does fall through to the default list on a fallback
failure. -/
theorem getAvailableBranches_fallback_failure (s msg : String) (h : parseBranches s = []) :
    getAvailableBranches { lsRemoteHeads := some s, lsRemoteErr := msg, bareClone := none } = none
    ∧ getAvailableBranchesLegacy { lsRemoteHeads := some s, lsRemoteErr := msg, bareClone := none }
        = ["main", "master"]
    ∧ ∀ out, parseFallbackBranches out = [] →
        getAvailableBranches { lsRemoteHeads := some s, lsRemoteErr := msg, bareClone := some out }
          = some ["main", "master"] := by
  refine ⟨?_, ?_, ?_⟩
  · simp [getAvailableBranches, h]
  · simp [getAvailableBranchesLegacy, h]
  · intro out hout
    simp [getAvailableBranches, h, hout]

/-- C3 amended, witness at the empty listing. -/
theorem getAvailableBranches_fallback_failure_witness :
    getAvailableBranches { lsRemoteHeads := some "", lsRemoteErr := "", bareClone := none } = none
    ∧ getAvailableBranchesLegacy { lsRemoteHeads := some "", lsRemoteErr := "", bareClone := none }
        = ["main", "master"]
    ∧ getAvailableBranches { lsRemoteHeads := some "", lsRemoteErr := "", bareClone := some "" }
        = some ["main", "master"] := by
  have h := getAvailableBranches_fallback_failure "" "" (by decide)
  exact ⟨h.1, h.2.1, h.2.2 "" (by decide)⟩

/-- C8 counterexample: two listing lines naming the same branch produce that
name twice in parseBranches, so the result is not deduplicated. -/
theorem parseBranches_keeps_duplicates :
    parseBranches "a\trefs/heads/main\nb\trefs/heads/main" = ["main", "main"]
    ∧ ¬ (parseBranches "a\trefs/heads/main\nb\trefs/heads/main").Nodup := by
  refine ⟨by decide, by decide⟩

/-- C8 amended: parseBranches returns exactly the names captured from the
refs/heads lines of the non-blank input lines, sorted under the code-unit
order (duplicates retained, one occurrence per capturing line). -/
theorem parseBranches_sorted_perm (s : String) :
    List.Sorted (fun a b => strLe a b = true) (parseBranches s)
    ∧ (parseBranches s).Perm
        (((splitLines s).filter (fun l => !(jsTrim l == ""))).filterMap matchRefsHeads) := by
  constructor
  · exact @List.sorted_insertionSort String (fun a b => strLe a b = true) _
      ⟨fun a b => strLe_total a b⟩ ⟨fun a b c => strLe_trans a b c⟩ _
  · exact List.perm_insertionSort _ _

theorem entryToNodes_good (exD : List String) (inc : Option (List String)) :
    ∀ (k : Nat) (e : Entry), sizeOf e ≤ k → ∀ t ∈ entryToNodes exD inc e,
      noEmptyDirs t = true ∧ hasDescFile t = true := by
  intro k
  induction k with
  | zero =>
    intro e he
    exfalso
    cases e <;> simp_arith at he
  | succ k ih =>
    intro e he t ht
    cases e with
    | file n c =>
      simp only [entryToNodes] at ht
      split at ht
      · simp only [List.mem_singleton] at ht
        subst ht
        exact ⟨by simp [noEmptyDirs], by simp [hasDescFile]⟩
      · simp at ht
    | dir n es =>
      rw [entryToNodes_dir] at ht
      split at ht
      · simp at ht
      · dsimp only at ht
        split at ht
        · simp at ht
        · rename_i hne
          simp only [List.mem_singleton] at ht
          subst ht
          have hsub : ∀ c2 ∈ ((sortEntries es).map (entryToNodes exD inc)).flatten,
              noEmptyDirs c2 = true ∧ hasDescFile c2 = true := by
            intro c2 hc2
            rw [List.mem_flatten] at hc2
            obtain ⟨l, hl, hc2l⟩ := hc2
            rw [List.mem_map] at hl
            obtain ⟨e2, he2, rfl⟩ := hl
            have he2es : e2 ∈ es := mem_sortEntries.mp he2
            have hsz : sizeOf e2 < sizeOf es := List.sizeOf_lt_of_mem he2es
            have hes : sizeOf es < sizeOf (Entry.dir n es) := by simp_arith
            exact ih e2 (by omega) c2 hc2l
          constructor
          · rw [noEmptyDirs_dir]
            simp only [Bool.and_eq_true, Bool.not_eq_true', List.all_eq_true]
            simp only [Bool.not_eq_true] at hne
            exact ⟨hne, fun c2 hc2 => (hsub c2 hc2).1⟩
          · rw [hasDescFile_dir]
            rw [List.any_eq_true]
            have hnonempty : ((sortEntries es).map (entryToNodes exD inc)).flatten ≠ [] := by
              intro hcon
              exact hne (by rw [hcon]; rfl)
            obtain ⟨c0, hc0⟩ := List.exists_mem_of_ne_nil _ hnonempty
            exact ⟨c0, hc0, (hsub c0 hc0).2⟩

/-- C5: every directory node strictly inside a buildFileTree result has at
least one child, recursively, and hence at least one descendant file that
survives filtering: empty directories are pruned. -/
theorem buildFileTree_no_empty_dirs (exD : List String) (inc : Option (List String))
    (repoName : String) (es : List Entry) :
    ((buildFileTree exD inc repoName es).children.all
      (fun c => noEmptyDirs c && hasDescFile c)) = true := by
  rw [List.all_eq_true]
  intro t ht
  rw [buildFileTree] at ht
  simp only [FileTree.children] at ht
  rw [List.mem_flatten] at ht
  obtain ⟨l, hl, htl⟩ := ht
  rw [List.mem_map] at hl
  obtain ⟨e2, he2, rfl⟩ := hl
  have h := entryToNodes_good exD inc (sizeOf e2) e2 le_rfl t htl
  rw [h.1, h.2]
  rfl

theorem processDirectory_recSort_aux (exD exF : List String) (inc : Option (List String)) :
    ∀ (k : Nat) (es : List Entry), sizeOf es ≤ k → ∀ p,
      processDirectory exD exF inc p (recSortList es) = canonicalWalk exD exF inc p es := by
  intro k
  induction k with
  | zero =>
    intro es he
    exfalso
    cases es <;> simp_arith at he
  | succ k ih =>
    intro es he p
    rw [recSortList_eq, processDirectory_eq, canonicalWalk_eq, List.map_map]
    congr 1
    apply List.map_congr_left
    intro e hmem
    have hsz : sizeOf e < sizeOf es := List.sizeOf_lt_of_mem (mem_sortEntries.mp hmem)
    cases e with
    | file n c =>
      simp only [Function.comp_apply, recSortEntry]
      simp only [processItem, canonicalItem]
    | dir n es2 =>
      simp only [Function.comp_apply, recSortEntry]
      simp only [processItem, canonicalItem]
      split
      · rfl
      · apply ih
        have hes : sizeOf es2 < sizeOf (Entry.dir n es2) := by simp_arith
        omega

/-- C2 amended: the concatenation walk of the Merger visits each directory in
the raw filesystem listing order, so it agrees with the canonical
directories-then-files lexicographic walk of the TreeBuilder exactly on
listings that are already recursively in that order: running processDirectory
on the recursively sorted listing reproduces the canonical walk, for every
input. -/
theorem processDirectory_recSort_canonical (exD exF : List String)
    (inc : Option (List String)) (p : String) (es : List Entry) :
    processDirectory exD exF inc p (recSortList es) = canonicalWalk exD exF inc p es :=
  processDirectory_recSort_aux exD exF inc (sizeOf es) es le_rfl p

/-- C2 counterexample: with the listing [file b.ts, directory a [file c.ts]]
the TreeBuilder sorts the directory before the file (the tree shows a/c.ts
above b.ts), but the walk of processDirectory emits b.ts first — the sequence
of file blocks does not follow the TreeBuilder order. -/
theorem processDirectory_not_canonical :
    processDirectory [] [] none "repo" [Entry.file "b.ts" "B", Entry.dir "a" [Entry.file "c.ts" "C"]]
        = [("repo/b.ts", "B"), ("repo/a/c.ts", "C")]
    ∧ canonicalWalk [] [] none "repo" [Entry.file "b.ts" "B", Entry.dir "a" [Entry.file "c.ts" "C"]]
        = [("repo/a/c.ts", "C"), ("repo/b.ts", "B")]
    ∧ (buildFileTree [] none "repo" [Entry.file "b.ts" "B", Entry.dir "a" [Entry.file "c.ts" "C"]]).children
        = [FileTree.dir "a" [FileTree.file "c.ts"], FileTree.file "b.ts"]
    ∧ processDirectory [] [] none "repo" [Entry.file "b.ts" "B", Entry.dir "a" [Entry.file "c.ts" "C"]]
        ≠ canonicalWalk [] [] none "repo" [Entry.file "b.ts" "B", Entry.dir "a" [Entry.file "c.ts" "C"]] := by
  have h1 : processDirectory [] [] none "repo"
      [Entry.file "b.ts" "B", Entry.dir "a" [Entry.file "c.ts" "C"]]
      = [("repo/b.ts", "B"), ("repo/a/c.ts", "C")] := by
    simp [processDirectory, processItem, filePasses, extMatches]
  have h2 : canonicalWalk [] [] none "repo"
      [Entry.file "b.ts" "B", Entry.dir "a" [Entry.file "c.ts" "C"]]
      = [("repo/a/c.ts", "C"), ("repo/b.ts", "B")] := by
    simp [canonicalWalk, canonicalItem, filePasses, extMatches, sortEntries,
      List.insertionSort, List.orderedInsert, entLe, Entry.isDir, Entry.entryName, strLe, charLe]
  have h3 : (buildFileTree [] none "repo"
      [Entry.file "b.ts" "B", Entry.dir "a" [Entry.file "c.ts" "C"]]).children
      = [FileTree.dir "a" [FileTree.file "c.ts"], FileTree.file "b.ts"] := by
    simp [buildFileTree, FileTree.children, entryToNodes, extMatches, sortEntries,
      List.insertionSort, List.orderedInsert, entLe, Entry.isDir, Entry.entryName, strLe, charLe]
  refine ⟨h1, h2, h3, ?_⟩
  rw [h1, h2]
  decide

/-- C7: in the walk, a file entry contributes its block exactly when the
filePasses predicate holds; the predicate is the conjunction of
not-excluded-by-name with the case-insensitive extension test (absent list
means all); walks concatenate over listings, so this governs every appended
file; illustrated by X.TS matching [".ts"] and by exclusion-by-name winning
over an included extension. -/
theorem processDirectory_file_predicate (exD exF : List String) (inc : Option (List String))
    (p n c : String) (es1 es2 : List Entry) :
    processDirectory exD exF inc p (es1 ++ es2)
        = processDirectory exD exF inc p es1 ++ processDirectory exD exF inc p es2
    ∧ processDirectory exD exF inc p [Entry.file n c]
        = (if filePasses exF inc n then [(p ++ "/" ++ n, c)] else [])
    ∧ (filePasses exF inc n = true ↔
        (n ∉ exF ∧ (inc = none ∨ ∃ exts, inc = some exts
          ∧ toLowerCase (extname n) ∈ exts.map toLowerCase)))
    ∧ filePasses [] (some [".ts"]) "X.TS" = true
    ∧ filePasses ["X.TS"] (some [".ts"]) "X.TS" = false := by
  refine ⟨?_, ?_, ?_, by decide, by decide⟩
  · rw [processDirectory_eq, processDirectory_eq, processDirectory_eq, List.map_append,
      List.flatten_append]
  · rw [processDirectory_eq]
    simp [processItem]
  · rw [filePasses]
    cases inc with
    | none => simp [extMatches]
    | some exts => simp [extMatches]

theorem toLowerCase_eq_empty_iff (s : String) : toLowerCase s = "" ↔ s = "" := by
  constructor
  · intro h
    rw [toLowerCase] at h
    have hd : s.data.map lowerChar = [] := by
      have := congrArg String.data h
      simpa using this
    rw [List.map_eq_nil_iff] at hd
    cases s
    subst hd
    rfl
  · intro h
    subst h
    rfl

theorem map_toLowerCase_contains_empty (exts : List String) :
    (exts.map toLowerCase).contains "" = exts.contains "" := by
  induction exts with
  | nil => rfl
  | cons e rest ih =>
    simp only [List.map_cons, List.contains_cons, ih]
    congr 1
    rw [Bool.eq_iff_iff, beq_iff_eq, beq_iff_eq]
    constructor
    · intro h
      exact ((toLowerCase_eq_empty_iff e).mp h.symm).symm
    · intro h
      exact ((toLowerCase_eq_empty_iff e).mpr h.symm).symm

/-- C10: a file whose extname is empty (a dotfile or an extensionless name,
for example .gitignore or Makefile) passes a present includeExtensions filter
exactly when the empty string is a member of the list, and so never passes a
list whose members are all non-empty (dot-prefixed) extensions — it is then
absent from the built tree and contributes no block to the walk. -/
theorem emptyExtname_inclusion (exts : List String) (n c p repoName : String)
    (h : extname n = "") (hne : ∀ e ∈ exts, ¬ e = "") :
    extMatches (some exts) n = exts.contains ""
    ∧ extMatches (some exts) n = false
    ∧ buildFileTree [] (some exts) repoName [Entry.file n c] = FileTree.dir repoName []
    ∧ processDirectory [] [] (some exts) p [Entry.file n c] = []
    ∧ extname ".gitignore" = "" ∧ extname "Makefile" = "" := by
  have h1 : extMatches (some exts) n = exts.contains "" := by
    rw [extMatches, h]
    show (exts.map toLowerCase).contains (toLowerCase "") = exts.contains ""
    exact map_toLowerCase_contains_empty exts
  have h2 : extMatches (some exts) n = false := by
    rw [h1]
    cases hc : exts.contains "" with
    | false => rfl
    | true => exact absurd (List.elem_iff.mp hc) (fun hm => hne "" hm rfl)
  refine ⟨h1, h2, ?_, ?_, by decide, by decide⟩
  · rw [buildFileTree]
    have hs : sortEntries [Entry.file n c] = [Entry.file n c] := rfl
    rw [hs]
    simp [entryToNodes, h2]
  · rw [processDirectory_eq]
    simp [processItem, filePasses, h2]

/-- C10 witness: .gitignore against the dot-prefixed list [".ts"]. -/
theorem emptyExtname_inclusion_witness :
    extMatches (some [".ts"]) ".gitignore" = [".ts"].contains ""
    ∧ extMatches (some [".ts"]) ".gitignore" = false
    ∧ buildFileTree [] (some [".ts"]) "repo" [Entry.file ".gitignore" "x"]
        = FileTree.dir "repo" []
    ∧ processDirectory [] [] (some [".ts"]) "repo" [Entry.file ".gitignore" "x"] = []
    ∧ extname ".gitignore" = "" ∧ extname "Makefile" = "" :=
  emptyExtname_inclusion [".ts"] ".gitignore" "x" "repo" "repo" (by decide) (by decide)

/-- C1: one merge call performs at most one output write; a clone failure or an
empty filtered tree makes it return false having written nothing, and whenever
a write happened the built tree was non-empty. -/
theorem mergeRepositoryFiles_write_once (githubUrl : String) (branch : Option String)
    (exD exF : List String) (inc : Option (List String)) (outputPath : String)
    (cloneResult : Option (List Entry)) (timestamp : String) :
    (mergeRepositoryFiles githubUrl branch exD exF inc outputPath cloneResult timestamp).2.length ≤ 1
    ∧ (∀ entries, cloneResult = some entries →
        (buildFileTree exD inc (getRepoNameFromUrl githubUrl) entries).children = [] →
        mergeRepositoryFiles githubUrl branch exD exF inc outputPath cloneResult timestamp
          = (false, []))
    ∧ ((mergeRepositoryFiles githubUrl branch exD exF inc outputPath cloneResult timestamp).2 ≠ [] →
        ∃ entries, cloneResult = some entries
          ∧ (buildFileTree exD inc (getRepoNameFromUrl githubUrl) entries).children ≠ []) := by
  cases cloneResult with
  | none =>
    refine ⟨by simp [mergeRepositoryFiles], ?_, ?_⟩
    · intro entries hco
      exact absurd hco (by simp)
    · intro hco
      exact absurd (show (mergeRepositoryFiles githubUrl branch exD exF inc outputPath none
        timestamp).2 = [] by simp [mergeRepositoryFiles]) hco
  | some entries =>
    refine ⟨?_, ?_, ?_⟩
    · simp only [mergeRepositoryFiles]
      split
      · simp
      · simp
    · intro entries2 h2 hemp
      cases h2
      simp only [mergeRepositoryFiles]
      rw [if_pos (by rw [hemp]; rfl)]
    · intro hW
      refine ⟨entries, rfl, fun hemp => ?_⟩
      apply hW
      simp only [mergeRepositoryFiles]
      rw [if_pos (by rw [hemp]; rfl)]

/-- C1 witness: a clone containing only a.md merged under an includeExtensions
list of [".ts"]: the filtered tree is empty, no write happens, false returned. -/
theorem mergeRepositoryFiles_write_once_witness :
    mergeRepositoryFiles "https://github.com/u/repo" none [] [] (some [".ts"]) "out.txt"
      (some [Entry.file "a.md" "x"]) "TS" = (false, []) :=
  (mergeRepositoryFiles_write_once "https://github.com/u/repo" none [] [] (some [".ts"]) "out.txt"
      (some [Entry.file "a.md" "x"]) "TS").2.1 [Entry.file "a.md" "x"] rfl
    (by have hx : extMatches (some [".ts"]) "a.md" = false := by decide
        simp [buildFileTree, FileTree.children, sortEntries, List.insertionSort,
          List.orderedInsert, entryToNodes, hx])

theorem cleanupStep_stubborn (fs : FsState) (d : String) :
    (cleanupStep fs d).stubborn = fs.stubborn := by
  rw [cleanupStep, rmDirRec]
  split
  · split <;> rfl
  · rfl

theorem cleanupStep_existing (fs : FsState) (d : String) :
    (cleanupStep fs d).existing
      = fs.existing.filter (fun e => !(e == d) || fs.stubborn.contains d) := by
  rw [cleanupStep, rmDirRec]
  by_cases hc : fs.existing.contains d
  · rw [if_pos hc]
    by_cases hs : fs.stubborn.contains d
    · rw [if_pos hs]
      symm
      rw [List.filter_eq_self]
      intro a _
      rw [hs, Bool.or_true]
    · have hs2 : fs.stubborn.contains d = false := by
        cases hval : fs.stubborn.contains d
        · rfl
        · exact absurd hval hs
      rw [if_neg hs]
      show fs.existing.filter _ = _
      apply List.filter_congr
      intro a _
      rw [hs2, Bool.or_false]
  · rw [if_neg hc]
    symm
    rw [List.filter_eq_self]
    intro a ha
    have hne : ¬ a = d := by
      intro h
      subst h
      exact hc (List.elem_iff.mpr ha)
    simp [hne]

theorem cleanup_stubborn (dirs : List String) (fs : FsState) :
    (cleanup dirs fs).stubborn = fs.stubborn := by
  induction dirs generalizing fs with
  | nil => rfl
  | cons d rest ih =>
    have h : cleanup (d :: rest) fs = cleanup rest (cleanupStep fs d) := rfl
    rw [h, ih, cleanupStep_stubborn]

theorem cleanup_existing (dirs : List String) (fs : FsState) :
    (cleanup dirs fs).existing
      = fs.existing.filter (fun e => !(dirs.contains e) || fs.stubborn.contains e) := by
  induction dirs generalizing fs with
  | nil =>
    have h : cleanup [] fs = fs := rfl
    rw [h]
    symm
    rw [List.filter_eq_self]
    intro a _
    rfl
  | cons d rest ih =>
    have h : cleanup (d :: rest) fs = cleanup rest (cleanupStep fs d) := rfl
    rw [h, ih, cleanupStep_stubborn, cleanupStep_existing, List.filter_filter]
    apply List.filter_congr
    intro a _
    rw [List.contains_cons]
    by_cases had : a = d
    · subst had
      rw [beq_self_eq_true]
      cases hSd : fs.stubborn.contains a <;> cases hR : rest.contains a <;> rfl
    · rw [beq_eq_false_iff_ne.mpr had]
      cases hSd : fs.stubborn.contains d <;> cases hSa : fs.stubborn.contains a <;>
        cases hR : rest.contains a <;> rfl

/-- C9 amended: cleanup is idempotent and total — running it twice equals
running it once, on an already-absent directory both the cleanup step and the
finally-block release do nothing and cannot raise, a failing removal inside
cleanup is swallowed leaving the state unchanged, and after cleanup a deletable
registered directory is absent; the finally-block release, however, has no
catch, so on an existing directory whose removal fails it raises (none)
instead of suppressing the failure. -/
theorem cleanup_idempotent (dirs : List String) (fs : FsState) (d : String) :
    cleanup dirs (cleanup dirs fs) = cleanup dirs fs
    ∧ (fs.existing.contains d = false → cleanupStep fs d = fs)
    ∧ (fs.existing.contains d = false →
        releaseFinally dirs fs d = some (dirs.filter (fun x => !(x == d)), fs))
    ∧ (fs.stubborn.contains d = true → cleanupStep fs d = fs)
    ∧ (d ∈ dirs → fs.stubborn.contains d = false →
        (cleanup dirs fs).existing.contains d = false)
    ∧ (fs.existing.contains d = true → fs.stubborn.contains d = true →
        releaseFinally dirs fs d = none) := by
  refine ⟨?_, ?_, ?_, ?_, ?_, ?_⟩
  · apply FsState.ext
    · rw [cleanup_existing dirs (cleanup dirs fs), cleanup_stubborn,
        cleanup_existing, List.filter_filter]
      apply List.filter_congr
      intro a _
      rw [Bool.and_self]
    · rw [cleanup_stubborn, cleanup_stubborn]
  · intro hc
    rw [cleanupStep, if_neg (by rw [hc]; exact Bool.false_ne_true)]
  · intro hc
    rw [releaseFinally, if_neg (by rw [hc]; exact Bool.false_ne_true)]
  · intro hs
    by_cases hc : fs.existing.contains d
    · rw [cleanupStep, if_pos hc, rmDirRec, if_pos hs]
    · rw [cleanupStep, if_neg hc]
  · intro hd hs
    rw [cleanup_existing, Bool.eq_false_iff]
    intro hcon
    have hmem := List.elem_iff.mp hcon
    rw [List.mem_filter] at hmem
    have hp := hmem.2
    simp [hs] at hp
    rcases hp with hp | hp
    · exact hp hd
    · exact absurd hp (by simpa using hs)
  · intro hc hs
    rw [releaseFinally, if_pos hc, rmDirRec, if_pos hs]
    simp

/-- C9 counterexample: the finally-block release of mergeRepositoryFiles wraps
its rmSync in no catch, so on a registered directory that exists but whose
recursive removal fails the release raises (modelled by none) — the deletion
failure is not suppressed there, refuting the claim that release never raises
on every cited site.  The cleanup loop, by contrast, swallows the same failure
and leaves the state unchanged. -/
theorem releaseFinally_raises_ce :
    releaseFinally ["d"] { existing := ["d"], stubborn := ["d"] } "d" = none
    ∧ cleanupStep { existing := ["d"], stubborn := ["d"] } "d"
        = { existing := ["d"], stubborn := ["d"] } := by
  constructor
  · rfl
  · rfl

/-- C9 witness: a registered, deletable workspace is gone after cleanup, and a
second cleanup is the first. -/
theorem cleanup_idempotent_witness :
    (cleanup ["a"] { existing := ["a"], stubborn := [] }).existing.contains "a" = false
    ∧ cleanup ["a"] (cleanup ["a"] { existing := ["a"], stubborn := [] })
        = cleanup ["a"] { existing := ["a"], stubborn := [] } :=
  ⟨(cleanup_idempotent ["a"] { existing := ["a"], stubborn := [] } "a").2.2.2.2.1
      (by decide) (by decide),
    (cleanup_idempotent ["a"] { existing := ["a"], stubborn := [] } "a").1⟩

/-- C6 (code bug): generateTreeString renders one line per node with the
branch or elbow marker and the continuation indent — but the header embedding
drops the first two rendered lines while re-adding only the root as
"repoName/", so the root's first child (the directory src here) has no line in
the embedded diagram. -/
theorem embeddedTreeString_drops_first_child :
    generateTreeString
        (FileTree.dir "repo" [FileTree.dir "src" [FileTree.file "a.ts"], FileTree.file "b.md"])
        "" true
      = "└─ repo\n   ├─ src\n   │  └─ a.ts\n   └─ b.md\n"
    ∧ embeddedTreeString "repo"
        (FileTree.dir "repo" [FileTree.dir "src" [FileTree.file "a.ts"], FileTree.file "b.md"])
      = "repo/\n   │  └─ a.ts\n   └─ b.md\n"
    ∧ hasSubstr
        (generateTreeString
          (FileTree.dir "repo" [FileTree.dir "src" [FileTree.file "a.ts"], FileTree.file "b.md"])
          "" true) "src" = true
    ∧ hasSubstr
        (embeddedTreeString "repo"
          (FileTree.dir "repo" [FileTree.dir "src" [FileTree.file "a.ts"], FileTree.file "b.md"]))
        "src" = false := by
  have h1 : generateTreeString
      (FileTree.dir "repo" [FileTree.dir "src" [FileTree.file "a.ts"], FileTree.file "b.md"])
      "" true
      = "└─ repo\n   ├─ src\n   │  └─ a.ts\n   └─ b.md\n" := by
    simp only [generateTreeString, renderChildren]
    rfl
  have h2 : embeddedTreeString "repo"
      (FileTree.dir "repo" [FileTree.dir "src" [FileTree.file "a.ts"], FileTree.file "b.md"])
      = "repo/\n   │  └─ a.ts\n   └─ b.md\n" := by
    rw [embeddedTreeString, h1]
    rfl
  refine ⟨h1, h2, ?_, ?_⟩
  · rw [h1]
    decide
  · rw [h2]
    decide

end GithubMerger
